import Mathlib

/-!
Shallow embedding of the vitamin reminder bot (src/bot.py) and verification of
the specification's claims about its scheduling engine.

Modelling conventions:
* Instants are integers counting minutes in the single configured time zone
  (Europe/Moscow, a fixed-offset zone), so `datetime.combine(now.date(), ...)`
  is floor-to-day arithmetic and `timedelta` is addition.
* The reminder table (the Python dict `reminders`) is an association list in
  insertion order; Python dict insertion updates in place, modelled by
  `insertRem`.
* The APScheduler job table is a list of `Job`s; `remove_job` wrapped in
  `try/except` is the idempotent `removeJob`; `add_job` with
  `replace_existing=True` is `addJobReplace`; with `replace_existing=False` it
  fails on a duplicate id (`addJobNoReplace`).
* `int(...)` / `str.split(":")` are modelled on canonical integer literals
  (optional sign followed by decimal digits), which covers every input the
  claims quantify over.
* `run_time.timestamp()` interpolated into the secondary job id is rendered as
  the model's integer minute value.
-/

/-! ### Parsing helpers (Python `int` and `str.split(":")`) -/

/-- Numeric value of a decimal digit character. -/
def charVal (c : Char) : Nat := c.toNat - 48

/-- Value of a list of decimal digit characters, most significant first. -/
def digitsToNat (cs : List Char) : Nat :=
  cs.foldl (fun a c => a * 10 + charVal c) 0

/-- Parse a nonempty all-digit character list, as Python `int` does after the
optional sign. -/
def parseNatChars (cs : List Char) : Option Nat :=
  if cs = [] then none
  else if cs.all Char.isDigit then some (digitsToNat cs) else none

/-- Model of Python `int(s)` on canonical integer literals: optional `+`/`-`
sign followed by decimal digits; anything else raises `ValueError` (`none`). -/
def parseIntChars : List Char → Option Int
  | '-' :: rest => (parseNatChars rest).map (fun n => -(n : Int))
  | '+' :: rest => (parseNatChars rest).map (fun n => (n : Int))
  | cs => (parseNatChars cs).map (fun n => (n : Int))

/-- Model of Python `int(s)` on a string. -/
def parseIntStr (s : String) : Option Int := parseIntChars s.data

/-- Model of Python `s.split(":")`: split at every colon, keeping empty
pieces, so the result is always nonempty. -/
def splitOnColon : List Char → List (List Char)
  | [] => [[]]
  | c :: rest =>
    let r := splitOnColon rest
    if c = ':' then [] :: r
    else
      match r with
      | [] => [[c]]
      | p :: ps => (c :: p) :: ps

/-- Model of `hour, minute = map(int, time_str.split(":"))`: succeeds exactly
when the split yields two pieces and both parse as integers. -/
def parseHM (s : String) : Option (Int × Int) :=
  match splitOnColon s.data with
  | [a, b] =>
    match parseIntChars a, parseIntChars b with
    | some h, some m => some (h, m)
    | _, _ => none
  | _ => none

/-- Decimal digit characters of a natural number, most significant first;
reference rendering used to reason about `Nat.repr`. -/
def natDigs (n : Nat) : List Char :=
  if h : n / 10 = 0 then [Nat.digitChar (n % 10)]
  else natDigs (n / 10) ++ [Nat.digitChar (n % 10)]
decreasing_by
  exact Nat.div_lt_self (Nat.pos_of_ne_zero fun hn => h (by simp [hn])) (by omega)

/-! ### Data model -/

/-- A stored reminder: `time_of_day` as the validated hour/minute pair (every
source path parses the stored `HH:MM` string with `map(int, ...)` before use)
plus the `accepted` flag. -/
structure Rem where
  hour : Int
  minute : Int
  accepted : Bool
deriving DecidableEq

/-- One record of the `reminders.json` snapshot, as written by
`save_reminders`. -/
structure SavedRec where
  chat : Int
  name : String
  hour : Int
  minute : Int
  accepted : Bool
deriving DecidableEq

/-- APScheduler trigger: `IntervalTrigger(hours=h, start_date=s)` or
`DateTrigger(run_date=r)`. -/
inductive Trigger where
  | interval (hours : Nat) (startDate : Int)
  | date (runDate : Int)
deriving DecidableEq

/-- Whether a trigger is an interval (recurring) trigger. -/
def Trigger.isInterval : Trigger → Bool
  | .interval _ _ => true
  | .date _ => false

/-- A registered scheduler job: its string id, trigger, and the
`args=[chat_id, name]` it was registered with. -/
structure Job where
  id : String
  trigger : Trigger
  args : Int × String
deriving DecidableEq

/-- The reminder table: association list keyed by `(chat_id, name)`. -/
abbrev Store := List ((Int × String) × Rem)

/-- On-disk content of `reminders.json`: a parseable snapshot, or the blank
content left by `open(SAVE_FILE, "w")` before `json.dump` completes. -/
inductive FileContent where
  | blank
  | json (recs : List SavedRec)
deriving DecidableEq

/-- Engine state: the in-memory reminder dict, the scheduler's job table, and
the snapshot file. -/
structure EState where
  store : Store
  jobs : List Job
  file : FileContent
deriving DecidableEq

/-! ### Store primitives (Python dict operations) -/

/-- `reminders.get(key)` / `key in reminders`. -/
def lookupRem : Store → Int × String → Option Rem
  | [], _ => none
  | (k, r) :: rest, key => if k = key then some r else lookupRem rest key

/-- `reminders[key] = r`: update in place if present, else append
(Python dict insertion order). -/
def insertRem : Store → Int × String → Rem → Store
  | [], key, r => [(key, r)]
  | (k, r0) :: rest, key, r =>
    if k = key then (k, r) :: rest else (k, r0) :: insertRem rest key r

/-- `del reminders[key]`. -/
def eraseRem : Store → Int × String → Store
  | [], _ => []
  | (k, r0) :: rest, key =>
    if k = key then eraseRem rest key else (k, r0) :: eraseRem rest key

/-- Number of entries stored under a key. -/
def countKey : Store → Int × String → Nat
  | [], _ => 0
  | (k, _) :: rest, key =>
    if k = key then countKey rest key + 1 else countKey rest key

/-! ### Scheduler primitives -/

/-- `job_id = f"{chat_id}_{name}"` — the primary job id. -/
def jobId (c : Int) (n : String) : String := toString c ++ "_" ++ n

/-- `f"{job_id}_repeat_{run_time.timestamp()}"` — the secondary (snooze) job
id; the timestamp is rendered as the model's integer run time. -/
def secondaryJobId (c : Int) (n : String) (runTime : Int) : String :=
  jobId c n ++ "_repeat_" ++ toString runTime

/-- `try: scheduler.remove_job(i) except: pass` — idempotent removal. -/
def removeJob (i : String) : List Job → List Job
  | [] => []
  | j :: rest => if j.id = i then removeJob i rest else j :: removeJob i rest

/-- Whether a job with the given id is registered. -/
def hasJobId (i : String) : List Job → Bool
  | [] => false
  | j :: rest => if j.id = i then true else hasJobId i rest

/-- `scheduler.add_job(..., replace_existing=True)` preceded by the source's
explicit `remove_job`: drop any job with the same id, then register. -/
def addJobReplace (j : Job) (jobs : List Job) : List Job :=
  removeJob j.id jobs ++ [j]

/-- `scheduler.add_job(..., replace_existing=False)`: fails (raises
`ConflictingIdError`) when the id is already registered. -/
def addJobNoReplace (j : Job) (jobs : List Job) : Option (List Job) :=
  if hasJobId j.id jobs then none else some (jobs ++ [j])

/-- The jobs registered under a given id. -/
def jobsWithId (i : String) : List Job → List Job
  | [] => []
  | j :: rest => if j.id = i then j :: jobsWithId i rest else jobsWithId i rest

/-! ### Time arithmetic -/

/-- Midnight of `now.date()` in minutes: floor to a whole day. -/
def dayStart (t : Int) : Int := t.fdiv 1440 * 1440

/-- `datetime.combine(now.date(), time(hour, minute))` in minutes. -/
def combineT (t h m : Int) : Int := dayStart t + h * 60 + m

/-- The anchor `Create` and the startup reload use: today's occurrence of the
time-of-day, rolled to tomorrow when strictly in the past
(`if first_time < now: first_time += timedelta(days=1)`). -/
def createAnchor (t h m : Int) : Int :=
  if combineT t h m < t then combineT t h m + 1440 else combineT t h m

/-- The anchor `Acknowledge` uses: today's occurrence of the time-of-day plus
one day, unconditionally. -/
def ackAnchor (t h m : Int) : Int := combineT t h m + 1440

/-- The primary hourly job registered for a reminder with the given first
firing time. -/
def mkPrimary (c : Int) (n : String) (start : Int) : Job :=
  ⟨jobId c n, .interval 1 start, (c, n)⟩

/-! ### Persistence -/

/-- `save_reminders`: serialize the table in iteration order. -/
def saveRems (store : Store) : List SavedRec :=
  store.map (fun kr => ⟨kr.1.1, kr.1.2, kr.2.hour, kr.2.minute, kr.2.accepted⟩)

/-- State after a successful `save_reminders()` call. -/
def doSave (st : EState) : EState :=
  { st with file := .json (saveRems st.store) }

/-- Crash-aware model of `save_reminders` acting on the disk:
`open(SAVE_FILE, "w")` first truncates the file to blank, then `json.dump`
writes the serialized table; a failure between the two leaves the truncated
file. The in-memory table and jobs are not touched either way. -/
def saveRemindersCrash (st : EState) (crashAfterOpen : Bool) : EState :=
  if crashAfterOpen then { st with file := .blank }
  else { st with file := .json (saveRems st.store) }

/-! ### Engine operations -/

/-- Result of the add-reminder flow. -/
inductive CreateRes where
  | ok
  | invalidTime
deriving DecidableEq

/-- Result of the acknowledge flow. -/
inductive AckRes where
  | ok
  | notFound
deriving DecidableEq

/-- Result of the snooze flow. -/
inductive SnoozeRes where
  | ok
  | notFound
  | invalidDelay
  | conflictingId
deriving DecidableEq

/-- Create (bot.py `handle_user_input`, add flow, `waiting_for_time` step):
parse `HH:MM`; `time(hour, minute)` raises on out-of-range values, caught by
the surrounding `except` before any mutation; otherwise insert/overwrite the
entry with `accepted=False`, replace the primary hourly job anchored at
`createAnchor`, and persist. -/
def createOp (t c : Int) (n timeText : String) (st : EState) : EState × CreateRes :=
  match parseHM timeText with
  | none => (st, .invalidTime)
  | some (h, m) =>
    if 0 ≤ h ∧ h < 24 ∧ 0 ≤ m ∧ m < 60 then
      (doSave { store := insertRem st.store (c, n) ⟨h, m, false⟩
                jobs := addJobReplace (mkPrimary c n (createAnchor t h m)) st.jobs
                file := st.file }, .ok)
    else (st, .invalidTime)

/-- Acknowledge (bot.py `handle_callback` `accepted|` branch and the
`"<name> принял"` text path): if the key exists, re-anchor the primary hourly
job at today's time-of-day plus one day, set `accepted=False`, persist;
otherwise report not found with no mutation. -/
def ackOp (t c : Int) (n : String) (st : EState) : EState × AckRes :=
  match lookupRem st.store (c, n) with
  | none => (st, .notFound)
  | some r =>
    (doSave { store := insertRem st.store (c, n) ⟨r.hour, r.minute, false⟩
              jobs := addJobReplace (mkPrimary c n (ackAnchor t r.hour r.minute)) st.jobs
              file := st.file }, .ok)

/-- Snooze (bot.py `handle_callback` `repeat|` branch): parse the delay (any
parseable integer is accepted); if the key exists, remove the job registered
under the primary id, then register a one-shot job at `now + delay` under the
timestamped secondary id with `replace_existing=False`. No persistence. -/
def snoozeOp (t c : Int) (n delayStr : String) (st : EState) : EState × SnoozeRes :=
  match parseIntStr delayStr with
  | none => (st, .invalidDelay)
  | some d =>
    if (lookupRem st.store (c, n)).isSome then
      let jobs1 := removeJob (jobId c n) st.jobs
      let rt := t + d
      match addJobNoReplace ⟨secondaryJobId c n rt, .date rt, (c, n)⟩ jobs1 with
      | some js => ({ st with jobs := js }, .ok)
      | none => ({ st with jobs := jobs1 }, .conflictingId)
    else (st, .notFound)

/-- Delete (bot.py `handle_callback` `delvitamin|` branch and
`handle_user_input` delete flow): the job under the derived id is removed
before the existence check; the entry is erased and persisted only when
present. Returns whether an entry existed. -/
def deleteOp (c : Int) (n : String) (st : EState) : EState × Bool :=
  let jobs1 := removeJob (jobId c n) st.jobs
  if (lookupRem st.store (c, n)).isSome then
    (doSave { store := eraseRem st.store (c, n), jobs := jobs1, file := st.file }, true)
  else ({ st with jobs := jobs1 }, false)

/-- Notification dispatch (bot.py `send_reminder_async`): absent key or
`accepted` flag set — return `false` without attempting delivery; otherwise
attempt delivery, any transport failure is caught and yields `false`. Result:
(state, attempted delivery, returned value); the state is never mutated. -/
def sendReminderOp (st : EState) (c : Int) (n : String) (transportOk : Bool) :
    EState × Bool × Bool :=
  match lookupRem st.store (c, n) with
  | none => (st, false, false)
  | some r => if r.accepted then (st, false, false) else (st, true, transportOk)

/-- Startup reload (bot.py `load_reminders`): for each record, insert the
entry first, then re-register the primary job anchored like `Create`; an
out-of-range time raises inside the single `try`, aborting the remaining
records with the offending entry already inserted. The file is not
rewritten. -/
def loadRecs (t : Int) : List SavedRec → EState → EState
  | [], st => st
  | rec :: rest, st =>
    let st1 := { st with
      store := insertRem st.store (rec.chat, rec.name) ⟨rec.hour, rec.minute, rec.accepted⟩ }
    if 0 ≤ rec.hour ∧ rec.hour < 24 ∧ 0 ≤ rec.minute ∧ rec.minute < 60 then
      loadRecs t rest { st1 with
        jobs := addJobReplace
          (mkPrimary rec.chat rec.name (createAnchor t rec.hour rec.minute)) st1.jobs }
    else st1

/-! ### Operation sequences -/

/-- One engine operation, with the wall-clock instant it runs at. -/
inductive Op where
  | create (t c : Int) (n timeText : String)
  | ack (t c : Int) (n : String)
  | snooze (t c : Int) (n delayStr : String)
  | del (c : Int) (n : String)
  | load (t : Int) (recs : List SavedRec)
deriving DecidableEq

/-- Execute one operation, keeping only the state. -/
def runOp (st : EState) : Op → EState
  | .create t c n tt => (createOp t c n tt st).1
  | .ack t c n => (ackOp t c n st).1
  | .snooze t c n d => (snoozeOp t c n d st).1
  | .del c n => (deleteOp c n st).1
  | .load t recs => loadRecs t recs st

/-- Execute a sequence of operations. -/
def runOps (st : EState) (ops : List Op) : EState := ops.foldl runOp st

/-- The empty startup state: no reminders, no jobs, no snapshot yet. -/
def initState : EState := ⟨[], [], .blank⟩

/-- Whether an operation is a snooze. -/
def Op.isSnooze : Op → Bool
  | .snooze _ _ _ _ => true
  | _ => false

/-- A snapshot record whose stored time-of-day is in range (as every record
written by the engine is). -/
def validRec (r : SavedRec) : Prop :=
  0 ≤ r.hour ∧ r.hour < 24 ∧ 0 ≤ r.minute ∧ r.minute < 60

instance : DecidablePred validRec := fun r => by unfold validRec; infer_instance

/-- Every `load` in the operation carries only in-range records. -/
def Op.loadValid : Op → Prop
  | .load _ recs => ∀ r ∈ recs, validRec r
  | _ => True

/-- Every `load` in the operation carries only unacknowledged records. -/
def Op.loadUnacked : Op → Prop
  | .load _ recs => ∀ r ∈ recs, r.accepted = false
  | _ => True

/-! ### Invariant vocabulary -/

/-- The store's key list has no duplicates (a Python dict never does). -/
def NodupKeys (s : Store) : Prop := (s.map Prod.fst).Nodup

instance : DecidablePred NodupKeys := fun s => by unfold NodupKeys; infer_instance

/-- The job table's id list has no duplicates (APScheduler enforces unique
ids). -/
def NodupIds (jobs : List Job) : Prop := (jobs.map Job.id).Nodup

/-- A live primary job for a key: registered under the derived id with a
recurring (interval) trigger. -/
def HasPrimary (k : Int × String) (jobs : List Job) : Prop :=
  ∃ j ∈ jobs, j.id = jobId k.1 k.2 ∧ j.trigger.isInterval = true

instance (k : Int × String) (jobs : List Job) : Decidable (HasPrimary k jobs) := by
  unfold HasPrimary; infer_instance

/-- Number of live primary jobs for a key. -/
def primaryCount (k : Int × String) (jobs : List Job) : Nat :=
  (jobsWithId (jobId k.1 k.2) jobs).length

/-- Every stored reminder has `accepted = false`. -/
def AllUnacked (s : Store) : Prop :=
  ∀ k r, lookupRem s k = some r → r.accepted = false

/-- The store/scheduler correspondence: a key is stored iff a primary job with
its derived id is registered. -/
def IffP (s : Store) (jobs : List Job) : Prop :=
  ∀ k, (lookupRem s k).isSome ↔ HasPrimary k jobs

/-- Basic well-formedness: distinct store keys and distinct job ids. -/
def InvGood (st : EState) : Prop := NodupKeys st.store ∧ NodupIds st.jobs

/-! ### Concrete fixtures for witnesses and counterexamples -/

/-- A sample reminder at 08:30, not acknowledged. -/
def remA : Rem := ⟨8, 30, false⟩

/-- A sample state holding reminder `(1, "x")` with its primary job anchored
at 08:30 of day 0 (minute 510). -/
def stW : EState :=
  ⟨[((1, "x"), remA)], [mkPrimary 1 "x" 510], .json (saveRems [((1, "x"), remA)])⟩

/-- The state reached from startup by creating `(1, "x")` at 08:00 of day 0
and snoozing it for 15 minutes at 08:01: the reminder is stored but its
primary job has been cancelled, and the secondary job `1_x_repeat_496` is
pending. -/
def stC5 : EState := runOps initState [.create 480 1 "x" "08:30", .snooze 481 1 "x" "15"]

/-- Like `stW` but with the `accepted` flag set, as a stored snapshot could
produce. -/
def stAcked : EState :=
  ⟨[((1, "x"), ⟨8, 30, true⟩)], [mkPrimary 1 "x" 510],
    .json (saveRems [((1, "x"), ⟨8, 30, true⟩)])⟩

/-! ### Digit and string rendering lemmas

`jobId` builds ids by string concatenation with an `_` separator; since a
rendered integer contains no `_`, the id determines the key. These lemmas
establish that, starting from the characters `Nat.repr` produces. -/

theorem natDigs_of_div_eq {n : Nat} (h : n / 10 = 0) :
    natDigs n = [Nat.digitChar (n % 10)] := by
  rw [natDigs]; simp [h]

theorem natDigs_of_div_ne {n : Nat} (h : n / 10 ≠ 0) :
    natDigs n = natDigs (n / 10) ++ [Nat.digitChar (n % 10)] := by
  rw [natDigs]; simp [h]

theorem digitChar_isDigit {m : Nat} (h : m < 10) : (Nat.digitChar m).isDigit = true := by
  interval_cases m <;> decide

theorem charVal_digitChar {m : Nat} (h : m < 10) : charVal (Nat.digitChar m) = m := by
  interval_cases m <;> decide

theorem natDigs_all_digit (n : Nat) : ∀ c ∈ natDigs n, c.isDigit = true := by
  induction n using Nat.strong_induction_on with
  | _ n ih =>
    by_cases h : n / 10 = 0
    · rw [natDigs_of_div_eq h]
      intro c hc
      rw [List.mem_singleton] at hc
      subst hc
      exact digitChar_isDigit (Nat.mod_lt _ (by omega))
    · rw [natDigs_of_div_ne h]
      intro c hc
      rcases List.mem_append.1 hc with h1 | h2
      · exact ih (n / 10)
          (Nat.div_lt_self (Nat.pos_of_ne_zero fun hn => h (by simp [hn])) (by omega)) c h1
      · rw [List.mem_singleton] at h2
        subst h2
        exact digitChar_isDigit (Nat.mod_lt _ (by omega))

theorem natDigs_ne_nil (n : Nat) : natDigs n ≠ [] := by
  by_cases h : n / 10 = 0
  · rw [natDigs_of_div_eq h]; simp
  · rw [natDigs_of_div_ne h]; simp

theorem digitsToNat_append (cs : List Char) (c : Char) :
    digitsToNat (cs ++ [c]) = digitsToNat cs * 10 + charVal c := by
  unfold digitsToNat
  rw [List.foldl_append]
  rfl

theorem digitsToNat_natDigs (n : Nat) : digitsToNat (natDigs n) = n := by
  induction n using Nat.strong_induction_on with
  | _ n ih =>
    by_cases h : n / 10 = 0
    · rw [natDigs_of_div_eq h]
      have hn : n < 10 := by
        by_contra hc
        push_neg at hc
        exact absurd h
          (Nat.pos_iff_ne_zero.mp ((Nat.le_div_iff_mul_le (by omega)).2 (by omega)))
      have hmod : n % 10 = n := Nat.mod_eq_of_lt hn
      have hs : digitsToNat [Nat.digitChar (n % 10)] = charVal (Nat.digitChar (n % 10)) := by
        simp [digitsToNat]
      rw [hs, charVal_digitChar (Nat.mod_lt _ (by omega)), hmod]
    · rw [natDigs_of_div_ne h, digitsToNat_append]
      rw [ih (n / 10)
        (Nat.div_lt_self (Nat.pos_of_ne_zero fun hn => h (by simp [hn])) (by omega))]
      rw [charVal_digitChar (Nat.mod_lt _ (by omega))]
      omega

theorem natDigs_inj {a b : Nat} (h : natDigs a = natDigs b) : a = b := by
  have := congrArg digitsToNat h
  simpa [digitsToNat_natDigs] using this

theorem toDigitsCore_eq (fuel : Nat) : ∀ (n : Nat) (acc : List Char), n < fuel →
    Nat.toDigitsCore 10 fuel n acc = natDigs n ++ acc := by
  induction fuel with
  | zero => omega
  | succ f ih =>
    intro n acc h
    rw [Nat.toDigitsCore]
    by_cases h0 : n / 10 = 0
    · simp [h0, natDigs_of_div_eq h0]
    · have h1 : n / 10 < n :=
        Nat.div_lt_self (Nat.pos_of_ne_zero fun hn => h0 (by simp [hn])) (by omega)
      simp only [h0, if_false]
      rw [ih (n / 10) _ (by omega), natDigs_of_div_ne h0]
      simp

theorem natRepr_data (n : Nat) : (Nat.repr n).data = natDigs n := by
  show (Nat.toDigits 10 n).asString.data = natDigs n
  unfold Nat.toDigits
  rw [toDigitsCore_eq (n + 1) n [] (by omega)]
  simp [List.asString]

theorem natRepr_inj {a b : Nat} (h : Nat.repr a = Nat.repr b) : a = b := by
  apply natDigs_inj
  rw [← natRepr_data, ← natRepr_data, h]

theorem intToString_data_ofNat (m : Nat) :
    (toString (Int.ofNat m)).data = natDigs m := by
  show (Nat.repr m).data = natDigs m
  exact natRepr_data m

theorem intToString_data_negSucc (m : Nat) :
    (toString (Int.negSucc m)).data = '-' :: natDigs (m + 1) := by
  show ("-" ++ Nat.repr (m + 1)).data = '-' :: natDigs (m + 1)
  rw [String.data_append, natRepr_data]
  rfl

theorem intToString_no_underscore (c : Int) : '_' ∉ (toString c).data := by
  cases c with
  | ofNat m =>
    rw [intToString_data_ofNat]
    intro hmem
    have := natDigs_all_digit m _ hmem
    exact absurd this (by decide)
  | negSucc m =>
    rw [intToString_data_negSucc]
    intro hmem
    rcases List.mem_cons.1 hmem with h1 | h1
    · exact absurd h1 (by decide)
    · have := natDigs_all_digit (m + 1) _ h1
      exact absurd this (by decide)

theorem intToString_inj {c1 c2 : Int} (h : toString c1 = toString c2) : c1 = c2 := by
  have hd := congrArg String.data h
  cases c1 with
  | ofNat m1 =>
    cases c2 with
    | ofNat m2 =>
      rw [intToString_data_ofNat, intToString_data_ofNat] at hd
      rw [natDigs_inj hd]
    | negSucc m2 =>
      rw [intToString_data_ofNat, intToString_data_negSucc] at hd
      have : '-' ∈ natDigs m1 := by rw [hd]; exact List.mem_cons_self _ _
      exact absurd (natDigs_all_digit m1 _ this) (by decide)
  | negSucc m1 =>
    cases c2 with
    | ofNat m2 =>
      rw [intToString_data_negSucc, intToString_data_ofNat] at hd
      have : '-' ∈ natDigs m2 := by rw [← hd]; exact List.mem_cons_self _ _
      exact absurd (natDigs_all_digit m2 _ this) (by decide)
    | negSucc m2 =>
      rw [intToString_data_negSucc, intToString_data_negSucc] at hd
      injection hd with _ h2
      have := natDigs_inj h2
      exact congrArg Int.negSucc (by omega)

theorem intToString_data_ne_nil (c : Int) : (toString c).data ≠ [] := by
  cases c with
  | ofNat m => rw [intToString_data_ofNat]; exact natDigs_ne_nil m
  | negSucc m => rw [intToString_data_negSucc]; simp

theorem append_sep_inj : ∀ {a b t1 t2 : List Char}, '_' ∉ a → '_' ∉ b →
    a ++ '_' :: t1 = b ++ '_' :: t2 → a = b ∧ t1 = t2 := by
  intro a
  induction a with
  | nil =>
    intro b t1 t2 _ hb h
    cases b with
    | nil => simpa using h
    | cons y ys =>
      rw [List.nil_append, List.cons_append, List.cons.injEq] at h
      exact absurd (h.1 ▸ List.mem_cons_self y ys) hb
  | cons x xs ih =>
    intro b t1 t2 ha hb h
    cases b with
    | nil =>
      rw [List.nil_append, List.cons_append, List.cons.injEq] at h
      exact absurd (h.1 ▸ List.mem_cons_self x xs) ha
    | cons y ys =>
      rw [List.cons_append, List.cons_append, List.cons.injEq] at h
      obtain ⟨hxy, hrest⟩ := h
      have := ih (fun hm => ha (List.mem_cons_of_mem _ hm))
        (fun hm => hb (List.mem_cons_of_mem _ hm)) hrest
      exact ⟨by rw [hxy, this.1], this.2⟩

theorem jobId_inj {c1 c2 : Int} {n1 n2 : String} (h : jobId c1 n1 = jobId c2 n2) :
    c1 = c2 ∧ n1 = n2 := by
  unfold jobId at h
  have hd := congrArg String.data h
  rw [String.data_append, String.data_append, String.data_append,
    String.data_append] at hd
  rw [List.append_assoc, List.append_assoc] at hd
  have hsep := append_sep_inj (intToString_no_underscore c1)
    (intToString_no_underscore c2) hd
  refine ⟨intToString_inj (String.ext hsep.1), String.ext hsep.2⟩

theorem jobId_ne {c1 c2 : Int} {n1 n2 : String} (h : (c1, n1) ≠ (c2, n2)) :
    jobId c1 n1 ≠ jobId c2 n2 := by
  intro he
  obtain ⟨h1, h2⟩ := jobId_inj he
  exact h (by rw [h1, h2])

theorem secondaryJobId_ne_jobId (c : Int) (n : String) (rt : Int) :
    secondaryJobId c n rt ≠ jobId c n := by
  intro h
  have := congrArg (fun s => s.data.length) h
  simp only [secondaryJobId, String.data_append, List.length_append] at this
  have hne := intToString_data_ne_nil rt
  have : (toString rt).data.length = 0 := by omega
  exact hne (List.length_eq_zero.1 this)

/-! ### Store lemmas -/

theorem lookupRem_insert_self (s : Store) (k : Int × String) (r : Rem) :
    lookupRem (insertRem s k r) k = some r := by
  induction s with
  | nil => simp [insertRem, lookupRem]
  | cons kv rest ih =>
    obtain ⟨k0, r0⟩ := kv
    by_cases h : k0 = k
    · simp [insertRem, lookupRem, h]
    · simp [insertRem, lookupRem, h, ih]

theorem lookupRem_insert_ne (s : Store) (k k' : Int × String) (r : Rem) (h : k' ≠ k) :
    lookupRem (insertRem s k r) k' = lookupRem s k' := by
  induction s with
  | nil => simp [insertRem, lookupRem, Ne.symm h]
  | cons kv rest ih =>
    obtain ⟨k0, r0⟩ := kv
    by_cases h0 : k0 = k
    · subst h0
      simp [insertRem, lookupRem, Ne.symm h]
    · by_cases h1 : k0 = k'
      · simp [insertRem, lookupRem, h0, h1, h]
      · simp [insertRem, lookupRem, h0, h1, ih]

theorem lookupRem_erase_self (s : Store) (k : Int × String) :
    lookupRem (eraseRem s k) k = none := by
  induction s with
  | nil => simp [eraseRem, lookupRem]
  | cons kv rest ih =>
    obtain ⟨k0, r0⟩ := kv
    by_cases h : k0 = k
    · simp [eraseRem, h, ih]
    · simp [eraseRem, lookupRem, h, ih]

theorem lookupRem_erase_ne (s : Store) (k k' : Int × String) (h : k' ≠ k) :
    lookupRem (eraseRem s k) k' = lookupRem s k' := by
  induction s with
  | nil => simp [eraseRem]
  | cons kv rest ih =>
    obtain ⟨k0, r0⟩ := kv
    by_cases h0 : k0 = k
    · subst h0
      simp [eraseRem, lookupRem, Ne.symm h, ih]
    · simp [eraseRem, lookupRem, h0, ih]

theorem countKey_eq_zero (s : Store) (k : Int × String) (h : k ∉ s.map Prod.fst) :
    countKey s k = 0 := by
  induction s with
  | nil => rfl
  | cons kv rest ih =>
    obtain ⟨k0, r0⟩ := kv
    simp only [List.map_cons, List.mem_cons] at h
    push_neg at h
    simp [countKey, Ne.symm h.1, ih h.2]

theorem keys_insert (s : Store) (k : Int × String) (r : Rem) :
    (insertRem s k r).map Prod.fst =
      if k ∈ s.map Prod.fst then s.map Prod.fst else s.map Prod.fst ++ [k] := by
  induction s with
  | nil => simp [insertRem]
  | cons kv rest ih =>
    obtain ⟨k0, r0⟩ := kv
    by_cases h : k0 = k
    · simp [insertRem, h]
    · simp only [insertRem, if_neg h, List.map_cons, ih, List.mem_cons]
      by_cases hm : k ∈ rest.map Prod.fst
      · simp [hm, Ne.symm h]
      · simp [hm, Ne.symm h]

theorem nodupKeys_insert (s : Store) (k : Int × String) (r : Rem) (h : NodupKeys s) :
    NodupKeys (insertRem s k r) := by
  unfold NodupKeys at *
  rw [keys_insert]
  by_cases hm : k ∈ s.map Prod.fst
  · simpa [hm] using h
  · simp only [hm, if_false]
    exact List.Nodup.append h (List.nodup_singleton k) (by simpa using hm)

theorem countKey_insert_self (s : Store) (k : Int × String) (r : Rem) (h : NodupKeys s) :
    countKey (insertRem s k r) k = 1 := by
  induction s with
  | nil => simp [insertRem, countKey]
  | cons kv rest ih =>
    obtain ⟨k0, r0⟩ := kv
    unfold NodupKeys at h
    simp only [List.map_cons, List.nodup_cons] at h
    by_cases h0 : k0 = k
    · subst h0
      simp [insertRem, countKey, countKey_eq_zero rest k0 h.1]
    · simp [insertRem, countKey, h0, ih h.2]

theorem keys_erase_sublist (s : Store) (k : Int × String) :
    ((eraseRem s k).map Prod.fst).Sublist (s.map Prod.fst) := by
  induction s with
  | nil => simp [eraseRem]
  | cons kv rest ih =>
    obtain ⟨k0, r0⟩ := kv
    by_cases h : k0 = k
    · simp only [eraseRem, if_pos h, List.map_cons]
      exact ih.cons _
    · simp only [eraseRem, if_neg h, List.map_cons]
      exact ih.cons₂ _

theorem nodupKeys_erase (s : Store) (k : Int × String) (h : NodupKeys s) :
    NodupKeys (eraseRem s k) :=
  (keys_erase_sublist s k).nodup h

/-! ### Job table lemmas -/

theorem mem_removeJob {i : String} {jobs : List Job} {j : Job} :
    j ∈ removeJob i jobs ↔ j ∈ jobs ∧ j.id ≠ i := by
  induction jobs with
  | nil => simp [removeJob]
  | cons j0 rest ih =>
    by_cases h : j0.id = i
    · simp only [removeJob, if_pos h, ih, List.mem_cons]
      constructor
      · rintro ⟨hm, hne⟩
        exact ⟨Or.inr hm, hne⟩
      · rintro ⟨hm | hm, hne⟩
        · exact absurd (hm ▸ h) hne
        · exact ⟨hm, hne⟩
    · simp only [removeJob, if_neg h, List.mem_cons, ih]
      constructor
      · rintro (he | ⟨hm, hne⟩)
        · exact ⟨Or.inl he, he ▸ h⟩
        · exact ⟨Or.inr hm, hne⟩
      · rintro ⟨he | hm, hne⟩
        · exact Or.inl he
        · exact Or.inr ⟨hm, hne⟩

theorem hasJobId_iff {i : String} {jobs : List Job} :
    hasJobId i jobs = true ↔ i ∈ jobs.map Job.id := by
  induction jobs with
  | nil => simp [hasJobId]
  | cons j0 rest ih =>
    by_cases h : j0.id = i
    · simp [hasJobId, h]
    · simp [hasJobId, h, ih, Ne.symm h]

theorem removeJob_of_not_has {i : String} {jobs : List Job}
    (h : hasJobId i jobs = false) : removeJob i jobs = jobs := by
  induction jobs with
  | nil => rfl
  | cons j0 rest ih =>
    by_cases h0 : j0.id = i
    · simp [hasJobId, h0] at h
    · simp only [hasJobId, if_neg h0] at h
      simp [removeJob, h0, ih h]

theorem jobsWithId_append (i : String) (l1 l2 : List Job) :
    jobsWithId i (l1 ++ l2) = jobsWithId i l1 ++ jobsWithId i l2 := by
  induction l1 with
  | nil => simp [jobsWithId]
  | cons j0 rest ih =>
    by_cases h : j0.id = i
    · simp [jobsWithId, h, ih]
    · simp [jobsWithId, h, ih]

theorem jobsWithId_removeJob_self (i : String) (jobs : List Job) :
    jobsWithId i (removeJob i jobs) = [] := by
  induction jobs with
  | nil => rfl
  | cons j0 rest ih =>
    by_cases h : j0.id = i
    · simp [removeJob, h, ih]
    · simp [removeJob, jobsWithId, h, ih]

theorem jobsWithId_removeJob_ne (i i' : String) (jobs : List Job) (h : i ≠ i') :
    jobsWithId i (removeJob i' jobs) = jobsWithId i jobs := by
  induction jobs with
  | nil => rfl
  | cons j0 rest ih =>
    by_cases h0 : j0.id = i'
    · have h1 : ¬j0.id = i := by rw [h0]; exact Ne.symm h
      simp only [removeJob, if_pos h0, jobsWithId, if_neg h1]
      exact ih
    · by_cases h1 : j0.id = i
      · simp only [removeJob, if_neg h0, jobsWithId, if_pos h1]
        rw [ih]
      · simp only [removeJob, if_neg h0, jobsWithId, if_neg h1]
        exact ih

theorem jobsWithId_addJobReplace_self (j : Job) (jobs : List Job) :
    jobsWithId j.id (addJobReplace j jobs) = [j] := by
  unfold addJobReplace
  rw [jobsWithId_append, jobsWithId_removeJob_self]
  simp [jobsWithId]

theorem jobsWithId_addJobReplace_ne (i : String) (j : Job) (jobs : List Job)
    (h : j.id ≠ i) : jobsWithId i (addJobReplace j jobs) = jobsWithId i jobs := by
  unfold addJobReplace
  rw [jobsWithId_append, jobsWithId_removeJob_ne i j.id jobs (Ne.symm h)]
  simp [jobsWithId, h]

theorem ids_removeJob_sublist (i : String) (jobs : List Job) :
    ((removeJob i jobs).map Job.id).Sublist (jobs.map Job.id) := by
  induction jobs with
  | nil => simp [removeJob]
  | cons j0 rest ih =>
    by_cases h : j0.id = i
    · simp only [removeJob, if_pos h, List.map_cons]
      exact ih.cons _
    · simp only [removeJob, if_neg h, List.map_cons]
      exact ih.cons₂ _

theorem nodupIds_removeJob (i : String) (jobs : List Job) (h : NodupIds jobs) :
    NodupIds (removeJob i jobs) :=
  (ids_removeJob_sublist i jobs).nodup h

theorem not_mem_ids_removeJob_self (i : String) (jobs : List Job) :
    i ∉ (removeJob i jobs).map Job.id := by
  intro hm
  rw [List.mem_map] at hm
  obtain ⟨j, hj, hid⟩ := hm
  exact (mem_removeJob.1 hj).2 hid

theorem nodupIds_append_fresh (jobs : List Job) (j : Job)
    (h : NodupIds jobs) (hf : j.id ∉ jobs.map Job.id) : NodupIds (jobs ++ [j]) := by
  unfold NodupIds at *
  rw [List.map_append]
  exact List.Nodup.append h (List.nodup_singleton _) (by simpa using hf)

theorem nodupIds_addJobReplace (j : Job) (jobs : List Job) (h : NodupIds jobs) :
    NodupIds (addJobReplace j jobs) :=
  nodupIds_append_fresh _ _ (nodupIds_removeJob _ _ h) (not_mem_ids_removeJob_self _ _)

theorem hasPrimary_addJobReplace_self (c : Int) (n : String) (a : Int) (jobs : List Job) :
    HasPrimary (c, n) (addJobReplace (mkPrimary c n a) jobs) := by
  refine ⟨mkPrimary c n a, List.mem_append_right _ (List.mem_singleton_self _), rfl, rfl⟩

theorem hasPrimary_addJobReplace_iff_ne (k : Int × String) (c : Int) (n : String)
    (a : Int) (jobs : List Job) (hk : k ≠ (c, n)) :
    HasPrimary k (addJobReplace (mkPrimary c n a) jobs) ↔ HasPrimary k jobs := by
  obtain ⟨k1, k2⟩ := k
  constructor
  · rintro ⟨j, hj, hid, hint⟩
    rcases List.mem_append.1 hj with hj | hj
    · exact ⟨j, (mem_removeJob.1 hj).1, hid, hint⟩
    · rw [List.mem_singleton] at hj
      subst hj
      obtain ⟨he1, he2⟩ := jobId_inj hid.symm
      exact absurd (Prod.ext he1 he2) hk
  · rintro ⟨j, hj, hid, hint⟩
    refine ⟨j, List.mem_append_left _ (mem_removeJob.2 ⟨hj, ?_⟩), hid, hint⟩
    rw [hid]
    exact jobId_ne hk

theorem not_hasPrimary_removeJob (c : Int) (n : String) (jobs : List Job) :
    ¬HasPrimary (c, n) (removeJob (jobId c n) jobs) := by
  rintro ⟨j, hj, hid, _⟩
  exact (mem_removeJob.1 hj).2 hid

theorem hasPrimary_removeJob_iff_ne (k : Int × String) (c : Int) (n : String)
    (jobs : List Job) (hk : k ≠ (c, n)) :
    HasPrimary k (removeJob (jobId c n) jobs) ↔ HasPrimary k jobs := by
  obtain ⟨k1, k2⟩ := k
  constructor
  · rintro ⟨j, hj, hid, hint⟩
    exact ⟨j, (mem_removeJob.1 hj).1, hid, hint⟩
  · rintro ⟨j, hj, hid, hint⟩
    refine ⟨j, mem_removeJob.2 ⟨hj, ?_⟩, hid, hint⟩
    rw [hid]
    exact jobId_ne hk

theorem hasJobId_false_not_mem {i : String} {jobs : List Job}
    (h : hasJobId i jobs = false) : i ∉ jobs.map Job.id := by
  intro hm
  rw [← hasJobId_iff, h] at hm
  cases hm

theorem length_jobsWithId_le_one (i : String) (jobs : List Job) (h : NodupIds jobs) :
    (jobsWithId i jobs).length ≤ 1 := by
  induction jobs with
  | nil => simp [jobsWithId]
  | cons j0 rest ih =>
    unfold NodupIds at h
    simp only [List.map_cons, List.nodup_cons] at h
    by_cases h0 : j0.id = i
    · have : jobsWithId i rest = [] := by
        clear ih
        induction rest with
        | nil => rfl
        | cons j1 rest1 ih1 =>
          simp only [List.map_cons, List.mem_cons] at h
          push_neg at h
          by_cases h1 : j1.id = i
          · exact absurd (h1 ▸ h0 ▸ rfl : j0.id = j1.id) h.1.1
          · simp only [jobsWithId, if_neg h1]
            exact ih1 ⟨by simpa using h.1.2, (List.nodup_cons.1 h.2).2⟩
      simp [jobsWithId, h0, this]
    · simp only [jobsWithId, if_neg h0]
      exact ih h.2


/-! ### Invariant preservation -/

theorem iffP_insert_replace (s : Store) (jobs : List Job) (c : Int) (n : String)
    (r : Rem) (a : Int) (h : IffP s jobs) :
    IffP (insertRem s (c, n) r) (addJobReplace (mkPrimary c n a) jobs) := by
  intro k
  by_cases hk : k = (c, n)
  · subst hk
    rw [lookupRem_insert_self]
    simp only [Option.isSome_some, true_iff]
    exact hasPrimary_addJobReplace_self c n a jobs
  · rw [lookupRem_insert_ne _ _ _ _ hk, hasPrimary_addJobReplace_iff_ne _ _ _ _ _ hk]
    exact h k

theorem iffP_erase_remove (s : Store) (jobs : List Job) (c : Int) (n : String)
    (h : IffP s jobs) :
    IffP (eraseRem s (c, n)) (removeJob (jobId c n) jobs) := by
  intro k
  by_cases hk : k = (c, n)
  · subst hk
    rw [lookupRem_erase_self]
    simp only [Option.isSome_none, Bool.false_eq_true, false_iff]
    exact not_hasPrimary_removeJob c n jobs
  · rw [lookupRem_erase_ne _ _ _ hk, hasPrimary_removeJob_iff_ne _ _ _ _ hk]
    exact h k

theorem iffP_remove_absent (s : Store) (jobs : List Job) (c : Int) (n : String)
    (h : IffP s jobs) (hl : lookupRem s (c, n) = none) :
    IffP s (removeJob (jobId c n) jobs) := by
  intro k
  by_cases hk : k = (c, n)
  · subst hk
    rw [hl]
    simp only [Option.isSome_none, Bool.false_eq_true, false_iff]
    exact not_hasPrimary_removeJob c n jobs
  · rw [hasPrimary_removeJob_iff_ne _ _ _ _ hk]
    exact h k

theorem iffP_loadRecs (t : Int) (recs : List SavedRec) (st : EState)
    (h : IffP st.store st.jobs) (hv : ∀ r ∈ recs, validRec r) :
    IffP (loadRecs t recs st).store (loadRecs t recs st).jobs := by
  induction recs generalizing st with
  | nil => exact h
  | cons rec rest ih =>
    have hrec := hv rec (List.mem_cons_self _ _)
    unfold validRec at hrec
    simp only [loadRecs, if_pos hrec]
    exact ih _ (iffP_insert_replace _ _ _ _ _ _ h) (fun r hr => hv r (List.mem_cons_of_mem _ hr))

theorem iffP_runOp (st : EState) (o : Op) (h : IffP st.store st.jobs)
    (hs : o.isSnooze = false) (hv : o.loadValid) :
    IffP (runOp st o).store (runOp st o).jobs := by
  cases o with
  | create t c n tt =>
    simp only [runOp, createOp]
    rcases parseHM tt with _ | ⟨hh, mm⟩
    · exact h
    · by_cases hr : 0 ≤ hh ∧ hh < 24 ∧ 0 ≤ mm ∧ mm < 60
      · simp only [if_pos hr]
        exact iffP_insert_replace _ _ _ _ _ _ h
      · simp only [if_neg hr]
        exact h
  | ack t c n =>
    simp only [runOp, ackOp]
    rcases lookupRem st.store (c, n) with _ | r
    · exact h
    · exact iffP_insert_replace _ _ _ _ _ _ h
  | snooze t c n d =>
    simp [Op.isSnooze] at hs
  | del c n =>
    simp only [runOp, deleteOp]
    rcases hl : lookupRem st.store (c, n) with _ | r
    · simp only [Option.isSome_none, Bool.false_eq_true, if_false]
      exact iffP_remove_absent _ _ _ _ h hl
    · simp only [Option.isSome_some, if_true]
      exact iffP_erase_remove _ _ _ _ h
  | load t recs =>
    exact iffP_loadRecs t recs st h hv

theorem invGood_loadRecs (t : Int) (recs : List SavedRec) (st : EState)
    (h : InvGood st) : InvGood (loadRecs t recs st) := by
  induction recs generalizing st with
  | nil => exact h
  | cons rec rest ih =>
    simp only [loadRecs]
    by_cases hrec : 0 ≤ rec.hour ∧ rec.hour < 24 ∧ 0 ≤ rec.minute ∧ rec.minute < 60
    · simp only [if_pos hrec]
      exact ih _ ⟨nodupKeys_insert _ _ _ h.1, nodupIds_addJobReplace _ _ h.2⟩
    · simp only [if_neg hrec]
      exact ⟨nodupKeys_insert _ _ _ h.1, h.2⟩

theorem invGood_runOp (st : EState) (o : Op) (h : InvGood st) : InvGood (runOp st o) := by
  cases o with
  | create t c n tt =>
    simp only [runOp, createOp]
    rcases parseHM tt with _ | ⟨hh, mm⟩
    · exact h
    · by_cases hr : 0 ≤ hh ∧ hh < 24 ∧ 0 ≤ mm ∧ mm < 60
      · simp only [if_pos hr]
        exact ⟨nodupKeys_insert _ _ _ h.1, nodupIds_addJobReplace _ _ h.2⟩
      · simp only [if_neg hr]
        exact h
  | ack t c n =>
    simp only [runOp, ackOp]
    rcases lookupRem st.store (c, n) with _ | r
    · exact h
    · exact ⟨nodupKeys_insert _ _ _ h.1, nodupIds_addJobReplace _ _ h.2⟩
  | snooze t c n d =>
    simp only [runOp, snoozeOp]
    rcases parseIntStr d with _ | dv
    · exact h
    · by_cases hl : (lookupRem st.store (c, n)).isSome
      · simp only [if_pos hl, addJobNoReplace]
        by_cases hq : hasJobId (secondaryJobId c n (t + dv))
            (removeJob (jobId c n) st.jobs) = true
        · simp only [hq, if_true]
          exact ⟨h.1, nodupIds_removeJob _ _ h.2⟩
        · rw [Bool.not_eq_true] at hq
          simp only [hq, Bool.false_eq_true, if_false]
          exact ⟨h.1, nodupIds_append_fresh _ _ (nodupIds_removeJob _ _ h.2)
            (hasJobId_false_not_mem hq)⟩
      · simp only [if_neg hl]
        exact h
  | del c n =>
    simp only [runOp, deleteOp]
    by_cases hl : (lookupRem st.store (c, n)).isSome
    · simp only [if_pos hl]
      exact ⟨nodupKeys_erase _ _ h.1, nodupIds_removeJob _ _ h.2⟩
    · simp only [if_neg hl]
      exact ⟨h.1, nodupIds_removeJob _ _ h.2⟩
  | load t recs =>
    exact invGood_loadRecs t recs st h

theorem invGood_runOps (st : EState) (ops : List Op) (h : InvGood st) :
    InvGood (runOps st ops) := by
  induction ops generalizing st with
  | nil => exact h
  | cons o rest ih => exact ih _ (invGood_runOp st o h)

theorem iffP_runOps (st : EState) (ops : List Op) (h : IffP st.store st.jobs)
    (hs : ∀ o ∈ ops, o.isSnooze = false) (hv : ∀ o ∈ ops, o.loadValid) :
    IffP (runOps st ops).store (runOps st ops).jobs := by
  induction ops generalizing st with
  | nil => exact h
  | cons o rest ih =>
    exact ih _ (iffP_runOp st o h (hs o (List.mem_cons_self _ _)) (hv o (List.mem_cons_self _ _)))
      (fun o ho => hs o (List.mem_cons_of_mem _ ho))
      (fun o ho => hv o (List.mem_cons_of_mem _ ho))

/-! ### Anchor arithmetic -/

theorem dayStart_bounds (t : Int) : dayStart t ≤ t ∧ t < dayStart t + 1440 := by
  have h1 : 1440 * (t.fdiv 1440) + t.fmod 1440 = t := Int.fdiv_add_fmod t 1440
  have h2 : t.fmod 1440 = t % 1440 := Int.fmod_eq_emod t (by omega)
  have h3 : 0 ≤ t % 1440 := Int.emod_nonneg t (by omega)
  have h4 : t % 1440 < 1440 := Int.emod_lt_of_pos t (by omega)
  rw [h2] at h1
  unfold dayStart
  omega

theorem createAnchor_spec (t h m : Int) (hh : 0 ≤ h ∧ h < 24) (hm : 0 ≤ m ∧ m < 60) :
    t ≤ createAnchor t h m ∧ createAnchor t h m < t + 1440 ∧
    (∃ kk : Int, createAnchor t h m = 1440 * kk + (h * 60 + m)) ∧
    (t ≤ combineT t h m → createAnchor t h m = combineT t h m) := by
  have h1 : 1440 * (t.fdiv 1440) + t.fmod 1440 = t := Int.fdiv_add_fmod t 1440
  have h2 : t.fmod 1440 = t % 1440 := Int.fmod_eq_emod t (by omega)
  have h3 : 0 ≤ t % 1440 := Int.emod_nonneg t (by omega)
  have h4 : t % 1440 < 1440 := Int.emod_lt_of_pos t (by omega)
  rw [h2] at h1
  unfold createAnchor combineT dayStart
  split_ifs with hc
  · exact ⟨by omega, by omega, ⟨t.fdiv 1440 + 1, by omega⟩, by omega⟩
  · exact ⟨by omega, by omega, ⟨t.fdiv 1440, by omega⟩, by omega⟩

/-! ### Operation equation lemmas -/

theorem createOp_found (st : EState) (t c h m : Int) (n timeText : String)
    (hp : parseHM timeText = some (h, m)) (hv : 0 ≤ h ∧ h < 24 ∧ 0 ≤ m ∧ m < 60) :
    createOp t c n timeText st =
      (⟨insertRem st.store (c, n) ⟨h, m, false⟩,
        addJobReplace (mkPrimary c n (createAnchor t h m)) st.jobs,
        .json (saveRems (insertRem st.store (c, n) ⟨h, m, false⟩))⟩, .ok) := by
  simp [createOp, hp, hv, doSave]

theorem ackOp_found (st : EState) (t c : Int) (n : String) (r : Rem)
    (hl : lookupRem st.store (c, n) = some r) :
    ackOp t c n st =
      (⟨insertRem st.store (c, n) ⟨r.hour, r.minute, false⟩,
        addJobReplace (mkPrimary c n (ackAnchor t r.hour r.minute)) st.jobs,
        .json (saveRems (insertRem st.store (c, n) ⟨r.hour, r.minute, false⟩))⟩, .ok) := by
  simp [ackOp, hl, doSave]

theorem ackOp_notFound (st : EState) (t c : Int) (n : String)
    (hl : lookupRem st.store (c, n) = none) :
    ackOp t c n st = (st, .notFound) := by
  simp [ackOp, hl]

theorem snoozeOp_found (st : EState) (t c d : Int) (n dStr : String) (r : Rem)
    (hd : parseIntStr dStr = some d) (hl : lookupRem st.store (c, n) = some r)
    (hf : hasJobId (secondaryJobId c n (t + d)) (removeJob (jobId c n) st.jobs) = false) :
    snoozeOp t c n dStr st =
      ({ st with jobs := removeJob (jobId c n) st.jobs ++
          [⟨secondaryJobId c n (t + d), .date (t + d), (c, n)⟩] }, .ok) := by
  simp [snoozeOp, hd, hl, addJobNoReplace, hf]

theorem snoozeOp_notFound (st : EState) (t c d : Int) (n dStr : String)
    (hd : parseIntStr dStr = some d) (hl : lookupRem st.store (c, n) = none) :
    snoozeOp t c n dStr st = (st, .notFound) := by
  simp [snoozeOp, hd, hl]

theorem snoozeOp_invalid (st : EState) (t c : Int) (n dStr : String)
    (hd : parseIntStr dStr = none) :
    snoozeOp t c n dStr st = (st, .invalidDelay) := by
  simp [snoozeOp, hd]

theorem deleteOp_found (st : EState) (c : Int) (n : String)
    (hl : (lookupRem st.store (c, n)).isSome) :
    deleteOp c n st =
      (⟨eraseRem st.store (c, n), removeJob (jobId c n) st.jobs,
        .json (saveRems (eraseRem st.store (c, n)))⟩, true) := by
  simp [deleteOp, hl, doSave]

theorem deleteOp_notFound (st : EState) (c : Int) (n : String)
    (hl : lookupRem st.store (c, n) = none) :
    deleteOp c n st = ({ st with jobs := removeJob (jobId c n) st.jobs }, false) := by
  simp [deleteOp, hl]

/-! ### AllUnacked preservation -/

theorem allUnacked_insert (s : Store) (k : Int × String) (r : Rem)
    (h : AllUnacked s) (hr : r.accepted = false) : AllUnacked (insertRem s k r) := by
  intro k' r' hl
  by_cases hk : k' = k
  · subst hk
    rw [lookupRem_insert_self] at hl
    cases hl
    exact hr
  · rw [lookupRem_insert_ne _ _ _ _ hk] at hl
    exact h k' r' hl

theorem allUnacked_erase (s : Store) (k : Int × String) (h : AllUnacked s) :
    AllUnacked (eraseRem s k) := by
  intro k' r' hl
  by_cases hk : k' = k
  · subst hk
    rw [lookupRem_erase_self] at hl
    cases hl
  · rw [lookupRem_erase_ne _ _ _ hk] at hl
    exact h k' r' hl

theorem allUnacked_loadRecs (t : Int) (recs : List SavedRec) (st : EState)
    (h : AllUnacked st.store) (hu : ∀ r ∈ recs, r.accepted = false) :
    AllUnacked (loadRecs t recs st).store := by
  induction recs generalizing st with
  | nil => exact h
  | cons rec rest ih =>
    have hrec := hu rec (List.mem_cons_self _ _)
    have hrest := fun r hr => hu r (List.mem_cons_of_mem _ hr)
    simp only [loadRecs]
    by_cases hv : 0 ≤ rec.hour ∧ rec.hour < 24 ∧ 0 ≤ rec.minute ∧ rec.minute < 60
    · simp only [if_pos hv]
      exact ih _ (allUnacked_insert _ _ _ h hrec) hrest
    · simp only [if_neg hv]
      exact allUnacked_insert _ _ _ h hrec

theorem snoozeOp_store_eq (st : EState) (t c : Int) (n dStr : String) :
    (snoozeOp t c n dStr st).1.store = st.store := by
  unfold snoozeOp
  rcases parseIntStr dStr with _ | d
  · rfl
  · by_cases hl : (lookupRem st.store (c, n)).isSome
    · simp only [if_pos hl, addJobNoReplace]
      by_cases hq : hasJobId (secondaryJobId c n (t + d)) (removeJob (jobId c n) st.jobs) = true
      · simp [hq]
      · rw [Bool.not_eq_true] at hq
        simp [hq]
    · simp [hl]

theorem allUnacked_runOp (st : EState) (o : Op) (h : AllUnacked st.store)
    (hu : o.loadUnacked) : AllUnacked (runOp st o).store := by
  cases o with
  | create t c n tt =>
    simp only [runOp, createOp]
    rcases parseHM tt with _ | ⟨hh, mm⟩
    · exact h
    · by_cases hr : 0 ≤ hh ∧ hh < 24 ∧ 0 ≤ mm ∧ mm < 60
      · simp only [if_pos hr]
        exact allUnacked_insert _ _ _ h rfl
      · simp only [if_neg hr]
        exact h
  | ack t c n =>
    simp only [runOp, ackOp]
    rcases lookupRem st.store (c, n) with _ | r
    · exact h
    · exact allUnacked_insert _ _ _ h rfl
  | snooze t c n d =>
    rw [show (runOp st (.snooze t c n d)) = (snoozeOp t c n d st).1 from rfl,
      snoozeOp_store_eq]
    exact h
  | del c n =>
    simp only [runOp, deleteOp]
    by_cases hl : (lookupRem st.store (c, n)).isSome
    · simp only [if_pos hl]
      exact allUnacked_erase _ _ h
    · simp only [if_neg hl]
      exact h
  | load t recs =>
    exact allUnacked_loadRecs t recs st h hu

theorem allUnacked_runOps (st : EState) (ops : List Op) (h : AllUnacked st.store)
    (hu : ∀ o ∈ ops, o.loadUnacked) : AllUnacked (runOps st ops).store := by
  induction ops generalizing st with
  | nil => exact h
  | cons o rest ih =>
    exact ih _ (allUnacked_runOp st o h (hu o (List.mem_cons_self _ _)))
      (fun o ho => hu o (List.mem_cons_of_mem _ ho))

/-! ### Append and reload closed forms -/

theorem insertRem_of_none (s : Store) (k : Int × String) (r : Rem)
    (h : lookupRem s k = none) : insertRem s k r = s ++ [(k, r)] := by
  induction s with
  | nil => rfl
  | cons kv rest ih =>
    obtain ⟨k0, r0⟩ := kv
    by_cases hk : k0 = k
    · simp [lookupRem, hk] at h
    · simp only [lookupRem, if_neg hk] at h
      simp [insertRem, hk, ih h]

theorem lookupRem_append_none (s1 s2 : Store) (k : Int × String)
    (h : lookupRem s1 k = none) : lookupRem (s1 ++ s2) k = lookupRem s2 k := by
  induction s1 with
  | nil => rfl
  | cons kv rest ih =>
    obtain ⟨k0, r0⟩ := kv
    by_cases hk : k0 = k
    · simp [lookupRem, hk] at h
    · simp only [lookupRem, if_neg hk] at h
      simp [lookupRem, hk, ih h]

theorem hasJobId_append (i : String) (l1 l2 : List Job) :
    hasJobId i (l1 ++ l2) = (hasJobId i l1 || hasJobId i l2) := by
  induction l1 with
  | nil => simp [hasJobId]
  | cons j rest ih =>
    by_cases h : j.id = i
    · simp [hasJobId, h]
    · simp [hasJobId, h, ih]

theorem jobsWithId_map_nil (l : Store) (k : Int × String)
    (f : (Int × String) × Rem → Int) (h : k ∉ l.map Prod.fst) :
    jobsWithId (jobId k.1 k.2) (l.map fun kr => mkPrimary kr.1.1 kr.1.2 (f kr)) = [] := by
  induction l with
  | nil => rfl
  | cons kr rest ih =>
    simp only [List.map_cons, List.mem_cons] at h
    push_neg at h
    have hne : (mkPrimary kr.1.1 kr.1.2 (f kr)).id ≠ jobId k.1 k.2 := by
      show jobId kr.1.1 kr.1.2 ≠ jobId k.1 k.2
      exact jobId_ne (fun he => h.1 he.symm)
    simp only [List.map_cons, jobsWithId, if_neg hne]
    exact ih h.2

theorem jobsWithId_map_primary (l : Store) (k : Int × String) (r : Rem)
    (f : (Int × String) × Rem → Int) (hnd : NodupKeys l) (hl : lookupRem l k = some r) :
    jobsWithId (jobId k.1 k.2) (l.map fun kr => mkPrimary kr.1.1 kr.1.2 (f kr)) =
      [mkPrimary k.1 k.2 (f (k, r))] := by
  induction l with
  | nil => cases hl
  | cons kr rest ih =>
    obtain ⟨k0, r0⟩ := kr
    unfold NodupKeys at hnd
    simp only [List.map_cons, List.nodup_cons] at hnd
    by_cases hk : k0 = k
    · subst hk
      rw [lookupRem, if_pos rfl] at hl
      cases hl
      simp only [List.map_cons, jobsWithId, if_pos rfl]
      rw [jobsWithId_map_nil rest k0 f hnd.1]
      simp [mkPrimary]
    · rw [lookupRem, if_neg hk] at hl
      have hne : (mkPrimary k0.1 k0.2 (f (k0, r0))).id ≠ jobId k.1 k.2 := by
        show jobId k0.1 k0.2 ≠ jobId k.1 k.2
        exact jobId_ne (fun he => hk he)
      simp only [List.map_cons, jobsWithId, if_neg hne]
      exact ih hnd.2 hl

theorem loadRecs_saveRems_gen (t : Int) (l : Store) : ∀ (st : EState),
    NodupKeys l →
    (∀ kr ∈ l, 0 ≤ kr.2.hour ∧ kr.2.hour < 24 ∧ 0 ≤ kr.2.minute ∧ kr.2.minute < 60) →
    (∀ kr ∈ l, lookupRem st.store kr.1 = none) →
    (∀ kr ∈ l, hasJobId (jobId kr.1.1 kr.1.2) st.jobs = false) →
    loadRecs t (saveRems l) st =
      ⟨st.store ++ l,
        st.jobs ++ l.map (fun kr => mkPrimary kr.1.1 kr.1.2
          (createAnchor t kr.2.hour kr.2.minute)),
        st.file⟩ := by
  induction l with
  | nil => intro st _ _ _ _; simp [saveRems, loadRecs]
  | cons kr rest ih =>
    intro st hnd hv hl hj
    obtain ⟨⟨c0, n0⟩, r0⟩ := kr
    unfold NodupKeys at hnd
    simp only [List.map_cons, List.nodup_cons] at hnd
    have hv0 : 0 ≤ r0.hour ∧ r0.hour < 24 ∧ 0 ≤ r0.minute ∧ r0.minute < 60 :=
      hv _ (List.mem_cons_self _ _)
    have hl0 : lookupRem st.store (c0, n0) = none := hl _ (List.mem_cons_self _ _)
    have hj0 : hasJobId (jobId c0 n0) st.jobs = false := hj _ (List.mem_cons_self _ _)
    have hins : insertRem st.store (c0, n0) (⟨r0.hour, r0.minute, r0.accepted⟩ : Rem) =
        st.store ++ [((c0, n0), r0)] := insertRem_of_none _ _ _ hl0
    have hadd : addJobReplace (mkPrimary c0 n0 (createAnchor t r0.hour r0.minute)) st.jobs =
        st.jobs ++ [mkPrimary c0 n0 (createAnchor t r0.hour r0.minute)] := by
      unfold addJobReplace
      rw [show (mkPrimary c0 n0 (createAnchor t r0.hour r0.minute)).id = jobId c0 n0 from rfl,
        removeJob_of_not_has hj0]
    have hstep : loadRecs t (saveRems (((c0, n0), r0) :: rest)) st =
        loadRecs t (saveRems rest)
          ⟨st.store ++ [((c0, n0), r0)],
            st.jobs ++ [mkPrimary c0 n0 (createAnchor t r0.hour r0.minute)], st.file⟩ := by
      simp only [saveRems, List.map_cons, loadRecs]
      rw [if_pos hv0, hins, hadd]
    rw [hstep]
    rw [ih ⟨st.store ++ [((c0, n0), r0)],
        st.jobs ++ [mkPrimary c0 n0 (createAnchor t r0.hour r0.minute)], st.file⟩
      hnd.2
      (fun kr hk => hv kr (List.mem_cons_of_mem _ hk))
      (fun kr hk => by
        have hk1 : kr.1 ≠ (c0, n0) := fun he => hnd.1 (he ▸ List.mem_map_of_mem Prod.fst hk)
        rw [lookupRem_append_none _ _ _ (hl kr (List.mem_cons_of_mem _ hk))]
        simp [lookupRem, Ne.symm hk1])
      (fun kr hk => by
        rw [hasJobId_append]
        have h1 := hj kr (List.mem_cons_of_mem _ hk)
        have hk1 : kr.1 ≠ (c0, n0) := fun he => hnd.1 (he ▸ List.mem_map_of_mem Prod.fst hk)
        have h2 : hasJobId (jobId kr.1.1 kr.1.2)
            [mkPrimary c0 n0 (createAnchor t r0.hour r0.minute)] = false := by
          have hne : jobId c0 n0 ≠ jobId kr.1.1 kr.1.2 := jobId_ne (fun he => hk1 he.symm)
          simp [hasJobId, mkPrimary, hne]
        rw [h1, h2]
        rfl)]
    simp

theorem lookupRem_mem (s : Store) (k : Int × String) (r : Rem)
    (h : lookupRem s k = some r) : (k, r) ∈ s := by
  induction s with
  | nil => cases h
  | cons kv rest ih =>
    obtain ⟨k0, r0⟩ := kv
    by_cases hk : k0 = k
    · rw [lookupRem, if_pos hk] at h
      cases h
      subst hk
      exact List.mem_cons_self _ _
    · rw [lookupRem, if_neg hk] at h
      exact List.mem_cons_of_mem _ (ih h)

theorem allUnacked_of_mem (s : Store) (h : ∀ kr ∈ s, kr.2.accepted = false) :
    AllUnacked s :=
  fun k r hl => h (k, r) (lookupRem_mem s k r hl)

/-! ### Claims -/

/-- C1 counterexample: the claim that Snooze leaves the primary job unchanged
is false. At `stW` the primary job `1_x` is registered; after
`Snooze(1, "x", 15)` at minute 481 the operation reports success but no job
with the primary id remains. -/
theorem snooze_cancels_primary_cex :
    jobsWithId (jobId 1 "x") stW.jobs ≠ [] ∧
    (snoozeOp 481 1 "x" "15" stW).2 = SnoozeRes.ok ∧
    jobsWithId (jobId 1 "x") (snoozeOp 481 1 "x" "15" stW).1.jobs = [] := by
  decide

/-- C1 (amended): for every existing reminder and parseable delay (with a
fresh secondary id), Snooze registers exactly one new secondary one-shot job
firing at now + delay and leaves the Store — including the acknowledged flag —
and the snapshot file unchanged, but it cancels the primary job: afterwards no
job with the primary id is registered. -/
theorem snooze_amended (st : EState) (t c d : Int) (n dStr : String) (r : Rem)
    (hd : parseIntStr dStr = some d) (hl : lookupRem st.store (c, n) = some r)
    (hf : hasJobId (secondaryJobId c n (t + d)) (removeJob (jobId c n) st.jobs) = false) :
    (snoozeOp t c n dStr st).2 = .ok ∧
    (snoozeOp t c n dStr st).1.store = st.store ∧
    (snoozeOp t c n dStr st).1.file = st.file ∧
    (snoozeOp t c n dStr st).1.jobs = removeJob (jobId c n) st.jobs ++
      [⟨secondaryJobId c n (t + d), .date (t + d), (c, n)⟩] ∧
    jobsWithId (jobId c n) (snoozeOp t c n dStr st).1.jobs = [] := by
  have he := snoozeOp_found st t c d n dStr r hd hl hf
  rw [he]
  refine ⟨rfl, rfl, rfl, rfl, ?_⟩
  show jobsWithId (jobId c n) (removeJob (jobId c n) st.jobs ++
    [⟨secondaryJobId c n (t + d), .date (t + d), (c, n)⟩]) = []
  rw [jobsWithId_append, jobsWithId_removeJob_self]
  rw [jobsWithId, if_neg (secondaryJobId_ne_jobId c n (t + d))]
  rfl

/-- C1 witness: the amended Snooze behavior at the concrete state `stW`. -/
theorem snooze_amended_witness :
    (snoozeOp 481 1 "x" "15" stW).2 = SnoozeRes.ok ∧
    (snoozeOp 481 1 "x" "15" stW).1.store = stW.store := by
  have h := snooze_amended stW 481 1 15 "x" "15" remA (by decide) (by decide) (by decide)
  exact ⟨h.1, h.2.1⟩

/-- C2 counterexample: after Create then Snooze, the reminder `(1, "x")` is
still stored but no primary job with its derived id is registered, refuting
the claimed if-and-only-if correspondence for sequences containing Snooze. -/
theorem store_without_primary_after_snooze_cex :
    (lookupRem stC5.store (1, "x")).isSome = true ∧ ¬HasPrimary (1, "x") stC5.jobs := by
  decide

/-- C2 (amended): after every sequence of engine operations at most one
primary job per key is live; and for sequences of Create, Acknowledge, Delete
and startup reloads of in-range snapshots — i.e. without Snooze, which cancels
the primary job while keeping the Store entry — a key is stored iff a primary
job with its derived id is registered. -/
theorem store_job_iff_amended (ops : List Op) :
    (∀ k : Int × String,
      (jobsWithId (jobId k.1 k.2) (runOps initState ops).jobs).length ≤ 1) ∧
    ((∀ o ∈ ops, o.isSnooze = false) → (∀ o ∈ ops, o.loadValid) →
      ∀ k : Int × String, (lookupRem (runOps initState ops).store k).isSome ↔
        HasPrimary k (runOps initState ops).jobs) := by
  have hg : InvGood (runOps initState ops) :=
    invGood_runOps initState ops ⟨List.nodup_nil, List.nodup_nil⟩
  refine ⟨fun k => length_jobsWithId_le_one _ _ hg.2, fun hs hv => ?_⟩
  exact iffP_runOps initState ops
    (fun k => by simp [initState, lookupRem, HasPrimary]) hs hv

/-- C2 witness: the correspondence holds at the concrete snooze-free sequence
consisting of a single Create. -/
theorem store_job_iff_amended_witness :
    (lookupRem (runOps initState [.create 480 1 "x" "08:30"]).store (1, "x")).isSome ↔
      HasPrimary (1, "x") (runOps initState [.create 480 1 "x" "08:30"]).jobs := by
  refine (store_job_iff_amended [.create 480 1 "x" "08:30"]).2 ?_ ?_ (1, "x")
  · intro o ho
    rw [List.mem_singleton] at ho
    subst ho
    rfl
  · intro o ho
    rw [List.mem_singleton] at ho
    subst ho
    exact trivial

/-- C3: Acknowledge on an existing reminder replaces the primary job with an
hourly (interval 1) job anchored at today's date's time-of-day plus exactly
one day — the formula `dayStart t + hour*60 + minute + 1440` does not depend
on whether today's firing already happened — stores the record with
`accepted = false`, and persists; on a missing reminder it returns notFound
with no mutation. -/
theorem acknowledge_rearms_next_day (st : EState) (t c : Int) (n : String) :
    (lookupRem st.store (c, n) = none → ackOp t c n st = (st, .notFound)) ∧
    (∀ r, lookupRem st.store (c, n) = some r →
      ackOp t c n st =
        (⟨insertRem st.store (c, n) ⟨r.hour, r.minute, false⟩,
          addJobReplace
            ⟨jobId c n, .interval 1 (dayStart t + r.hour * 60 + r.minute + 1440), (c, n)⟩
            st.jobs,
          .json (saveRems (insertRem st.store (c, n) ⟨r.hour, r.minute, false⟩))⟩, .ok) ∧
      lookupRem (ackOp t c n st).1.store (c, n) = some ⟨r.hour, r.minute, false⟩ ∧
      jobsWithId (jobId c n) (ackOp t c n st).1.jobs =
        [⟨jobId c n, .interval 1 (dayStart t + r.hour * 60 + r.minute + 1440), (c, n)⟩]) := by
  refine ⟨fun hl => ackOp_notFound st t c n hl, fun r hl => ?_⟩
  have he := ackOp_found st t c n r hl
  refine ⟨he, ?_, ?_⟩
  · rw [he]
    exact lookupRem_insert_self _ _ _
  · rw [he]
    exact jobsWithId_addJobReplace_self
      ⟨jobId c n, .interval 1 (dayStart t + r.hour * 60 + r.minute + 1440), (c, n)⟩ st.jobs

/-- C3 witness: acknowledging `(1, "x")` at minute 600 of day 0 stores
`accepted = false` and re-anchors the hourly job at 08:30 of day 1. -/
theorem acknowledge_rearms_next_day_witness :
    lookupRem (ackOp 600 1 "x" stW).1.store (1, "x") = some ⟨8, 30, false⟩ ∧
    jobsWithId (jobId 1 "x") (ackOp 600 1 "x" stW).1.jobs =
      [⟨jobId 1 "x", .interval 1 (dayStart 600 + 8 * 60 + 30 + 1440), (1, "x")⟩] := by
  have h := (acknowledge_rearms_next_day stW 600 1 "x").2 remA (by decide)
  exact ⟨h.2.1, h.2.2⟩

/-- C4: with a parseable in-range time, Create succeeds, overwrites the entry
with `accepted = false` (exactly one entry for the key), registers exactly one
hourly primary job anchored at the next occurrence of the time-of-day at or
after now (rolling to tomorrow only when today's occurrence is strictly past),
and persists the snapshot; a second Create for the same key again leaves
exactly one entry and exactly the new primary job. -/
theorem create_anchors_and_overwrites (st : EState) (t c h m : Int) (n timeText : String)
    (hp : parseHM timeText = some (h, m)) (hh : 0 ≤ h ∧ h < 24) (hm : 0 ≤ m ∧ m < 60)
    (hn : n ≠ "") (hk : NodupKeys st.store) :
    (createOp t c n timeText st).2 = .ok ∧
    lookupRem (createOp t c n timeText st).1.store (c, n) = some ⟨h, m, false⟩ ∧
    countKey (createOp t c n timeText st).1.store (c, n) = 1 ∧
    NodupKeys (createOp t c n timeText st).1.store ∧
    jobsWithId (jobId c n) (createOp t c n timeText st).1.jobs =
      [⟨jobId c n, .interval 1 (createAnchor t h m), (c, n)⟩] ∧
    t ≤ createAnchor t h m ∧
    createAnchor t h m < t + 1440 ∧
    (∃ kk : Int, createAnchor t h m = 1440 * kk + (h * 60 + m)) ∧
    (t ≤ combineT t h m → createAnchor t h m = combineT t h m) ∧
    (createOp t c n timeText st).1.file =
      .json (saveRems (createOp t c n timeText st).1.store) ∧
    (∀ (t2 h2 m2 : Int) (tt2 : String), parseHM tt2 = some (h2, m2) →
      0 ≤ h2 ∧ h2 < 24 → 0 ≤ m2 ∧ m2 < 60 →
      countKey (createOp t2 c n tt2 (createOp t c n timeText st).1).1.store (c, n) = 1 ∧
      jobsWithId (jobId c n) (createOp t2 c n tt2 (createOp t c n timeText st).1).1.jobs =
        [⟨jobId c n, .interval 1 (createAnchor t2 h2 m2), (c, n)⟩]) := by
  have hv : 0 ≤ h ∧ h < 24 ∧ 0 ≤ m ∧ m < 60 := ⟨hh.1, hh.2, hm.1, hm.2⟩
  have he := createOp_found st t c h m n timeText hp hv
  have hanch := createAnchor_spec t h m hh hm
  refine ⟨by rw [he], ?_, ?_, ?_, ?_, hanch.1, hanch.2.1, hanch.2.2.1, hanch.2.2.2,
    by rw [he], ?_⟩
  · rw [he]
    exact lookupRem_insert_self _ _ _
  · rw [he]
    exact countKey_insert_self _ _ _ hk
  · rw [he]
    exact nodupKeys_insert _ _ _ hk
  · rw [he]
    exact jobsWithId_addJobReplace_self (mkPrimary c n (createAnchor t h m)) st.jobs
  · intro t2 h2 m2 tt2 hp2 hh2 hm2
    have hv2 : 0 ≤ h2 ∧ h2 < 24 ∧ 0 ≤ m2 ∧ m2 < 60 := ⟨hh2.1, hh2.2, hm2.1, hm2.2⟩
    have hk1 : NodupKeys (insertRem st.store (c, n) ⟨h, m, false⟩) :=
      nodupKeys_insert _ _ _ hk
    rw [he]
    show countKey (createOp t2 c n tt2
        ⟨insertRem st.store (c, n) ⟨h, m, false⟩,
          addJobReplace (mkPrimary c n (createAnchor t h m)) st.jobs,
          .json (saveRems (insertRem st.store (c, n) ⟨h, m, false⟩))⟩).1.store (c, n) = 1 ∧ _
    have he2 := createOp_found
      ⟨insertRem st.store (c, n) ⟨h, m, false⟩,
        addJobReplace (mkPrimary c n (createAnchor t h m)) st.jobs,
        .json (saveRems (insertRem st.store (c, n) ⟨h, m, false⟩))⟩ t2 c h2 m2 n tt2 hp2 hv2
    rw [he2]
    exact ⟨countKey_insert_self _ _ _ hk1,
      jobsWithId_addJobReplace_self (mkPrimary c n (createAnchor t2 h2 m2)) _⟩

/-- C4 witness: creating `(1, "x")` at 08:00 of day 0 with time `08:30`. -/
theorem create_anchors_and_overwrites_witness :
    (createOp 480 1 "x" "08:30" initState).2 = .ok ∧
    lookupRem (createOp 480 1 "x" "08:30" initState).1.store (1, "x") =
      some ⟨8, 30, false⟩ ∧
    countKey (createOp 480 1 "x" "08:30" initState).1.store (1, "x") = 1 := by
  have h := create_anchors_and_overwrites initState 480 1 8 30 "x" "08:30"
    (by decide) (by decide) (by decide) (by decide) List.nodup_nil
  exact ⟨h.1, h.2.1, h.2.2.1⟩

/-- C5 counterexample: Delete cancels the job under the derived id before
checking existence, so deleting the non-existent reminder
`(1, "x_repeat_496")` — whose derived id collides with the secondary job of a
snoozed `(1, "x")` — returns NotFound yet removes that job from the
scheduler. -/
theorem delete_notfound_mutates_scheduler_cex :
    lookupRem stC5.store (1, "x_repeat_496") = none ∧
    (deleteOp 1 "x_repeat_496" stC5).2 = false ∧
    (deleteOp 1 "x_repeat_496" stC5).1.jobs ≠ stC5.jobs := by
  decide

/-- C5 (amended): on a key absent from the Store, Acknowledge and Snooze
(with a parseable delay) return NotFound with no mutation at all; Delete also
reports NotFound and leaves the Store and file unchanged, but first
unconditionally cancels any job registered under the derived id, so the
scheduler is unchanged only when no such job exists. -/
theorem notfound_noop_amended (st : EState) (t c d : Int) (n dStr : String)
    (hl : lookupRem st.store (c, n) = none) (hd : parseIntStr dStr = some d) :
    ackOp t c n st = (st, .notFound) ∧
    snoozeOp t c n dStr st = (st, .notFound) ∧
    (deleteOp c n st).2 = false ∧
    (deleteOp c n st).1.store = st.store ∧
    (deleteOp c n st).1.file = st.file ∧
    (deleteOp c n st).1.jobs = removeJob (jobId c n) st.jobs ∧
    (hasJobId (jobId c n) st.jobs = false → deleteOp c n st = (st, false)) := by
  have hdel := deleteOp_notFound st c n hl
  refine ⟨ackOp_notFound st t c n hl, snoozeOp_notFound st t c d n dStr hd hl,
    by rw [hdel], by rw [hdel], by rw [hdel], by rw [hdel], ?_⟩
  intro hh
  rw [hdel, removeJob_of_not_has hh]

/-- C5 witness: the three operations on the absent key `(1, "z")` at `stW`. -/
theorem notfound_noop_amended_witness :
    ackOp 600 1 "z" stW = (stW, AckRes.notFound) ∧
    snoozeOp 600 1 "z" "15" stW = (stW, SnoozeRes.notFound) ∧
    deleteOp 1 "z" stW = (stW, false) := by
  have h := notfound_noop_amended stW 600 1 15 "z" "15" (by decide) (by decide)
  exact ⟨h.1, h.2.1, h.2.2.2.2.2.2 (by decide)⟩

/-- C6 counterexample: the claim that non-positive delays fail with
InvalidDelay is false: on an existing reminder, `Snooze(1, "x", "-5")`
succeeds and schedules a secondary job at now − 5 minutes. -/
theorem snooze_negative_delay_cex :
    (snoozeOp 481 1 "x" "-5" stW).2 = SnoozeRes.ok ∧
    (snoozeOp 481 1 "x" "-5" stW).1.jobs =
      removeJob (jobId 1 "x") stW.jobs ++
        [⟨secondaryJobId 1 "x" 476, .date 476, (1, "x")⟩] := by
  decide

/-- C6 (amended): only a delay unparsable as an integer fails, with
InvalidDelay and no state change; every parseable integer delay — including
zero and negative values — is accepted on an existing reminder and schedules
the one-shot secondary job at now + delay. -/
theorem snooze_delay_validation_amended (st : EState) (t c : Int) (n dStr : String) :
    (parseIntStr dStr = none → snoozeOp t c n dStr st = (st, .invalidDelay)) ∧
    (∀ d r, parseIntStr dStr = some d → lookupRem st.store (c, n) = some r →
      hasJobId (secondaryJobId c n (t + d)) (removeJob (jobId c n) st.jobs) = false →
      (snoozeOp t c n dStr st).2 = .ok ∧
      (snoozeOp t c n dStr st).1.jobs = removeJob (jobId c n) st.jobs ++
        [⟨secondaryJobId c n (t + d), .date (t + d), (c, n)⟩]) := by
  refine ⟨fun hd => snoozeOp_invalid st t c n dStr hd, fun d r hd hl hf => ?_⟩
  have he := snoozeOp_found st t c d n dStr r hd hl hf
  rw [he]
  exact ⟨rfl, rfl⟩

/-- C6 witness: an unparsable delay is rejected and the delay `0` is accepted
at the concrete state `stW`. -/
theorem snooze_delay_validation_amended_witness :
    snoozeOp 481 1 "x" "abc" stW = (stW, SnoozeRes.invalidDelay) ∧
    (snoozeOp 481 1 "x" "0" stW).2 = SnoozeRes.ok := by
  refine ⟨(snooze_delay_validation_amended stW 481 1 "x" "abc").1 (by decide), ?_⟩
  exact ((snooze_delay_validation_amended stW 481 1 "x" "0").2 0 remA (by decide) (by decide)
    (by decide)).1

/-- C7: serializing the Store and reloading it at time `t` into a fresh state
reproduces exactly the same table — same keys, times and acknowledged flags —
and registers exactly one primary hourly job per reminder, anchored by the
same roll-to-tomorrow rule (`createAnchor`) that Create uses. -/
theorem save_load_roundtrip (store : Store) (t : Int) (hk : NodupKeys store)
    (hv : ∀ kr ∈ store, 0 ≤ kr.2.hour ∧ kr.2.hour < 24 ∧ 0 ≤ kr.2.minute ∧ kr.2.minute < 60) :
    (loadRecs t (saveRems store) initState).store = store ∧
    (loadRecs t (saveRems store) initState).jobs =
      store.map (fun kr => mkPrimary kr.1.1 kr.1.2 (createAnchor t kr.2.hour kr.2.minute)) ∧
    (∀ k, lookupRem (loadRecs t (saveRems store) initState).store k = lookupRem store k) ∧
    (∀ k r, lookupRem store k = some r →
      jobsWithId (jobId k.1 k.2) (loadRecs t (saveRems store) initState).jobs =
        [mkPrimary k.1 k.2 (createAnchor t r.hour r.minute)]) := by
  have he := loadRecs_saveRems_gen t store initState hk hv
    (fun kr _ => rfl) (fun kr _ => rfl)
  rw [he]
  refine ⟨by simp [initState], by simp [initState], fun k => by simp [initState], ?_⟩
  intro k r hl
  have hm := jobsWithId_map_primary store k r
    (fun kr => createAnchor t kr.2.hour kr.2.minute) hk hl
  simpa [initState] using hm

/-- C7 witness: round trip of the one-reminder store at minute 600, whose
08:30 slot has passed, so the reloaded job anchors at 08:30 of day 1. -/
theorem save_load_roundtrip_witness :
    (loadRecs 600 (saveRems [((1, "x"), remA)]) initState).store = [((1, "x"), remA)] ∧
    (loadRecs 600 (saveRems [((1, "x"), remA)]) initState).jobs =
      [mkPrimary 1 "x" 1950] := by
  have h := save_load_roundtrip [((1, "x"), remA)] 600 (by decide) (by decide)
  refine ⟨h.1, ?_⟩
  rw [h.2.1]
  decide

/-- C8 counterexample: the claim that a failed snapshot write leaves the
prior file intact is false: `save_reminders` opens the file in truncate mode
first, so a crash before the dump completes leaves the file blank instead of
the prior snapshot and not equal to the new one either. -/
theorem save_crash_truncates_cex :
    (saveRemindersCrash stW true).file = FileContent.blank ∧
    stW.file ≠ FileContent.blank ∧
    (saveRemindersCrash stW true).file ≠ FileContent.json (saveRems stW.store) := by
  decide

/-- C8 (amended): a completed snapshot write stores the serialized table, but
a failure after the truncating open leaves the file blank — the prior on-disk
content is not preserved; the in-memory Store and job table are unchanged in
both cases. -/
theorem save_crash_behavior_amended (st : EState) (b : Bool) :
    (saveRemindersCrash st false).file = .json (saveRems st.store) ∧
    (saveRemindersCrash st true).file = .blank ∧
    (saveRemindersCrash st b).store = st.store ∧
    (saveRemindersCrash st b).jobs = st.jobs := by
  cases b <;> simp [saveRemindersCrash]

/-- C9: Send returns false without attempting delivery when the reminder is
absent or acknowledged; otherwise it attempts delivery and returns the
transport outcome — a transport failure yields false — and in every case the
state (Store, scheduler, file) is unchanged and no retry job is created. -/
theorem send_suppression_gate (st : EState) (c : Int) (n : String) (tok : Bool) :
    (lookupRem st.store (c, n) = none → sendReminderOp st c n tok = (st, false, false)) ∧
    (∀ r, lookupRem st.store (c, n) = some r → r.accepted = true →
      sendReminderOp st c n tok = (st, false, false)) ∧
    (∀ r, lookupRem st.store (c, n) = some r → r.accepted = false →
      sendReminderOp st c n tok = (st, true, tok)) := by
  refine ⟨fun hl => by simp [sendReminderOp, hl],
    fun r hl ha => by simp [sendReminderOp, hl, ha],
    fun r hl ha => by simp [sendReminderOp, hl, ha]⟩

/-- C9 witness: delivery attempted with a failing transport at `stW` (false
returned, state unchanged), suppressed on the acknowledged copy `stAcked`,
and suppressed for the absent owner 2. -/
theorem send_suppression_gate_witness :
    sendReminderOp stW 1 "x" false = (stW, true, false) ∧
    sendReminderOp stAcked 1 "x" true = (stAcked, false, false) ∧
    sendReminderOp stW 2 "x" true = (stW, false, false) := by
  refine ⟨(send_suppression_gate stW 1 "x" false).2.2 remA (by decide) (by decide),
    (send_suppression_gate stAcked 1 "x" true).2.1 ⟨8, 30, true⟩ (by decide) (by decide),
    (send_suppression_gate stW 2 "x" true).1 (by decide)⟩

/-- C10: starting from a Store whose reminders are all unacknowledged, every
sequence of engine operations (with reloads drawn from unacknowledged
snapshots) keeps every reminder unacknowledged — Create and Acknowledge write
`accepted = false`, Snooze never touches the Store, Send never mutates state —
and under that invariant Send's suppression branch is unreachable: on any
stored reminder it always attempts delivery. -/
theorem acknowledged_never_true (st : EState) (ops : List Op)
    (h0 : AllUnacked st.store) (hl : ∀ o ∈ ops, o.loadUnacked) :
    AllUnacked (runOps st ops).store ∧
    (∀ t c n dStr, (snoozeOp t c n dStr st).1.store = st.store) ∧
    (∀ c n tok, (sendReminderOp st c n tok).1 = st) ∧
    (∀ c n r tok, lookupRem st.store (c, n) = some r →
      (sendReminderOp st c n tok).2.1 = true) := by
  refine ⟨allUnacked_runOps st ops h0 hl, fun t c n d => snoozeOp_store_eq st t c n d, ?_, ?_⟩
  · intro c n tok
    unfold sendReminderOp
    rcases lookupRem st.store (c, n) with _ | r
    · rfl
    · by_cases ha : r.accepted <;> simp [ha]
  · intro c n r tok hl2
    have ha := h0 (c, n) r hl2
    simp [sendReminderOp, hl2, ha]

/-- C10 witness: acknowledging and snoozing `(1, "x")` from `stW` keeps every
stored reminder unacknowledged. -/
theorem acknowledged_never_true_witness :
    AllUnacked (runOps stW [.ack 600 1 "x", .snooze 601 1 "x" "15"]).store := by
  have h := acknowledged_never_true stW [.ack 600 1 "x", .snooze 601 1 "x" "15"]
    (allUnacked_of_mem stW.store (by decide)) ?_
  · exact h.1
  · intro o ho
    simp only [List.mem_cons, List.not_mem_nil, or_false] at ho
    rcases ho with rfl | rfl
    · exact trivial
    · exact trivial
